import Mathlib

/-!
Verification development for the dashboard_aggregator program
(source: src/src/main.rs). The program lists a directory, selects log
files by name prefix and modification time, parses each selected file as
CSV, aggregates per-row counters filtered by an event-timestamp cutoff,
merges the per-file aggregates into global maps, ranks them, and emits
two JSON documents.

The Rust HashMap with the entry-or-insert-then-add update pattern is
modelled as an association list of key/count pairs; iteration order of a
HashMap is unspecified in Rust, and every statement proved below about
counts, key sets and rankings is insensitive to that order.
-/

/-- Association-list model of a Rust HashMap from String keys to u32
counts. Counts are modelled as Nat: the program only ever adds, and the
row counts involved are far below the u32 wrap-around, which no claim
exercises. -/
abbrev HMap := List (String × Nat)

/-- Lookup of the value stored under a key (first matching entry). -/
def HMap.lookup : HMap → String → Option Nat
  | [], _ => none
  | e :: rest, k => if e.1 = k then some e.2 else HMap.lookup rest k

/-- Value stored under a key, defaulting to 0 when the key is absent. -/
def HMap.count (m : HMap) (k : String) : Nat :=
  (HMap.lookup m k).getD 0

/-- The update written in Rust as an entry-or-insert-0 followed by += c:
if the key is present its value grows by c, otherwise the key is
inserted with value c. -/
def HMap.incrBy : HMap → String → Nat → HMap
  | [], k, c => [(k, c)]
  | e :: rest, k, c =>
    if e.1 = k then (e.1, e.2 + c) :: rest else e :: HMap.incrBy rest k c

/-- The += 1 form of the update, used for every per-row counter. -/
def HMap.incr (m : HMap) (k : String) : HMap :=
  HMap.incrBy m k 1

/-- HashMap::insert: replace the value of an existing key or add the
pair. Used only to pre-seed the global priorities map. -/
def HMap.insert : HMap → String → Nat → HMap
  | [], k, v => [(k, v)]
  | e :: rest, k, v =>
    if e.1 = k then (k, v) :: rest else e :: HMap.insert rest k v

/-- The keys of the map, in entry order (HashMap::keys). -/
def HMap.keysList (m : HMap) : List String :=
  m.map Prod.fst

/-- The values of the map, in entry order (HashMap::values). -/
def HMap.valuesList (m : HMap) : List Nat :=
  m.map Prod.snd

/-- Total weight carried by a key: the sum of the values of all entries
holding that key. On maps without duplicate keys this is HMap.count. -/
def HMap.weight (m : HMap) (k : String) : Nat :=
  (m.map fun e => if e.1 = k then e.2 else 0).sum

/-- The map has no duplicate keys (true of every map the program builds). -/
def HMap.nodupKeys (m : HMap) : Prop :=
  (HMap.keysList m).Nodup

/-- Every entry of the map carries a count of at least 1. -/
def HMap.allPos (m : HMap) : Prop :=
  ∀ e ∈ m, 1 ≤ e.2

instance (m : HMap) : Decidable (HMap.nodupKeys m) := by
  unfold HMap.nodupKeys
  infer_instance

instance (m : HMap) : Decidable (HMap.allPos m) := by
  unfold HMap.allPos
  infer_instance

/-- The merge loop of main: for every key of the per-file map p, add its
count into the global map g, inserting the key when absent. -/
def HMap.mergeInto (g : HMap) (p : HMap) : HMap :=
  p.foldl (fun acc e => HMap.incrBy acc e.1 e.2) g

/-- chrono::NaiveDateTime restricted to whole seconds, which is all the
fixed parse format can produce: calendar date plus time of day. -/
structure NaiveDateTime where
  year : Int
  month : Nat
  day : Nat
  hour : Nat
  minute : Nat
  second : Nat
deriving DecidableEq

/-- Strict chronological comparison a < b. chrono orders NaiveDateTime
by date and then by time of day, which on validated component values is
exactly this lexicographic comparison of the six components. -/
def NaiveDateTime.ltb (a b : NaiveDateTime) : Bool :=
  if a.year ≠ b.year then decide (a.year < b.year)
  else if a.month ≠ b.month then decide (a.month < b.month)
  else if a.day ≠ b.day then decide (a.day < b.day)
  else if a.hour ≠ b.hour then decide (a.hour < b.hour)
  else if a.minute ≠ b.minute then decide (a.minute < b.minute)
  else decide (a.second < b.second)

/-- Scan between 1 and width leading decimal digits, as the numeric
scanner of chrono does; returns the value and the unconsumed rest. -/
def scanDigitsAux : Nat → Nat → List Char → Nat × List Char
  | 0, acc, cs => (acc, cs)
  | _ + 1, acc, [] => (acc, [])
  | w + 1, acc, c :: cs =>
    if c.isDigit then scanDigitsAux w (acc * 10 + (c.toNat - 48)) cs
    else (acc, c :: cs)

/-- Scan a number of at least one and at most width digits; none when
the input does not begin with a digit. -/
def scanNumber (width : Nat) (cs : List Char) : Option (Nat × List Char) :=
  match cs with
  | [] => none
  | c :: rest =>
    if c.isDigit then some (scanDigitsAux (width - 1) (c.toNat - 48) rest)
    else none

/-- Drop leading whitespace. chrono trims whitespace in front of every
numeric item and at every whitespace item of the format string. -/
def skipSpace (cs : List Char) : List Char :=
  cs.dropWhile Char.isWhitespace

/-- Require one exact character, consuming it. -/
def expectChar (c : Char) : List Char → Option (List Char)
  | [] => none
  | c' :: rest => if c' = c then some rest else none

/-- The %Y item: an unsigned year of at most 4 digits, or a sign
followed by an explicitly signed year (chrono then accepts more digits;
18 covers every year within the chrono date range). -/
def parseYearNum (cs : List Char) : Option (Int × List Char) :=
  match cs with
  | '-' :: rest => (scanNumber 18 rest).map fun p => (-(p.1 : Int), p.2)
  | '+' :: rest => (scanNumber 18 rest).map fun p => ((p.1 : Int), p.2)
  | _ => (scanNumber 4 cs).map fun p => ((p.1 : Int), p.2)

/-- Proleptic Gregorian leap-year rule used by chrono. -/
def isLeapYear (y : Int) : Bool :=
  y % 4 == 0 && (y % 100 != 0 || y % 400 == 0)

/-- Number of days of a month, with the leap-year rule for February. -/
def daysInMonth (y : Int) (m : Nat) : Nat :=
  if m = 2 then (if isLeapYear y then 29 else 28)
  else if m = 4 ∨ m = 6 ∨ m = 9 ∨ m = 11 then 30
  else 31

/-- NaiveDateTime::parse_from_str with the fixed format of the program:
year, month and day separated by slashes, a space, then hour, minute and
second separated by colons. The whole input must be consumed, and the
component ranges are validated as chrono does (second 60 stands for a
leap second, which chrono accepts). chrono additionally bounds years to
roughly plus or minus 262000, a limit no claim exercises. -/
def parseFixed (s : String) : Option NaiveDateTime := do
  let (year, cs) ← parseYearNum (skipSpace s.data)
  let cs ← expectChar '/' cs
  let (month, cs) ← scanNumber 2 (skipSpace cs)
  let cs ← expectChar '/' cs
  let (day, cs) ← scanNumber 2 (skipSpace cs)
  let (hour, cs) ← scanNumber 2 (skipSpace cs)
  let cs ← expectChar ':' cs
  let (minute, cs) ← scanNumber 2 (skipSpace cs)
  let cs ← expectChar ':' cs
  let (second, cs) ← scanNumber 2 (skipSpace cs)
  if cs = [] ∧ 1 ≤ month ∧ month ≤ 12 ∧ 1 ≤ day ∧ day ≤ daysInMonth year month
      ∧ hour ≤ 23 ∧ minute ≤ 59 ∧ second ≤ 60 then
    pure ⟨year, month, day, hour, minute, second⟩
  else none

/-- Left-pad a digit string with zeros up to the given width. -/
def padZeros (width : Nat) (s : String) : String :=
  (List.replicate (width - s.length) '0').asString ++ s

/-- The year as printed by the Display of chrono::NaiveDate: four
zero-padded digits for common-era years up to 9999, an explicit sign
otherwise. -/
def formatYear (y : Int) : String :=
  if y < 0 then "-" ++ padZeros 4 (Nat.repr y.natAbs)
  else if y ≤ 9999 then padZeros 4 (Nat.repr y.toNat)
  else "+" ++ Nat.repr y.toNat

/-- The Display of chrono::NaiveDate: year, month and day joined by
hyphens, month and day zero-padded to two digits. -/
def formatDate (dt : NaiveDateTime) : String :=
  formatYear dt.year ++ "-" ++ padZeros 2 (Nat.repr dt.month) ++ "-"
    ++ padZeros 2 (Nat.repr dt.day)

/-- The aware_threats bucket key built in the AWARE branch: the calendar
date, a space, and AM when the hour is below 12, PM otherwise. -/
def bucketKey (dt : NaiveDateTime) : String :=
  formatDate dt ++ " " ++ (if dt.hour < 12 then "AM" else "PM")

/-- One character list starts with another. -/
def startsWithChars : List Char → List Char → Bool
  | _, [] => true
  | [], _ :: _ => false
  | h :: hs, p :: ps => h = p && startsWithChars hs ps

/-- One character list contains another as a contiguous run. -/
def containsChars : List Char → List Char → Bool
  | [], pat => startsWithChars [] pat
  | c :: hs, pat => startsWithChars (c :: hs) pat || containsChars hs pat

/-- str::contains with a string pattern: case-sensitive substring
search, used for the AWARE test on the flags field. -/
def strContains (hay pat : String) : Bool :=
  containsChars hay.data pat.data

/-- str::starts_with with a string pattern: the name-prefix test of
filter_files. -/
def strStarts (s pre : String) : Bool :=
  startsWithChars s.data pre.data

/-- A row yielded by the CSV reader iterator: none stands for an Err
item (a malformed or unreadable record, which the loop skips after
printing a diagnostic), some holds the fields of a StringRecord. -/
abbrev CsvRow := Option (List String)

/-- StringRecord::get with unwrap_or_default: the field at a zero-based
index, or the empty string when the record is shorter. -/
def getField (record : List String) (i : Nat) : String :=
  record.getD i ""

/-- The four per-file aggregate maps (struct AggregatedData); the same
shape is reused for the global aggregates of main. -/
structure AggregatedData where
  priorities_count : HMap
  threat_sources : HMap
  threat_destinations : HMap
  aware_threats : HMap
deriving DecidableEq

/-- The empty aggregates a file starts from. -/
def emptyAgg : AggregatedData :=
  ⟨[], [], [], []⟩

/-- The body of the record loop of process_csv_file, acting on one row:
skip Err rows; parse field 4 with the fixed format and drop the row
unless the parse succeeds and the result is strictly after the cutoff;
then count field 1 into priorities_count, field 6 into threat_sources,
field 12 into threat_destinations, and, when field 3 contains AWARE,
re-parse field 4 and count the date-plus-period bucket. -/
def processResult (cutoff : NaiveDateTime) (acc : AggregatedData)
    (result : CsvRow) : AggregatedData :=
  match result with
  | none => acc
  | some record =>
    match parseFixed (getField record 4) with
    | none => acc
    | some event_datetime =>
      if NaiveDateTime.ltb cutoff event_datetime then
        { priorities_count := HMap.incr acc.priorities_count (getField record 1)
          threat_sources := HMap.incr acc.threat_sources (getField record 6)
          threat_destinations := HMap.incr acc.threat_destinations (getField record 12)
          aware_threats :=
            if strContains (getField record 3) "AWARE" then
              match parseFixed (getField record 4) with
              | some date_time => HMap.incr acc.aware_threats (bucketKey date_time)
              | none => acc.aware_threats
            else acc.aware_threats }
      else acc

/-- The row loop of process_csv_file over the rows the reader yields.
The cutoff is now minus days_back days, captured once per invocation;
time acquisition is modelled by passing that cutoff in. -/
def processRows (cutoff : NaiveDateTime) (rows : List CsvRow) : AggregatedData :=
  rows.foldl (processResult cutoff) emptyAgg

/-- process_csv_file: opening the file can fail (ReaderBuilder
from_path with the question-mark operator), in which case the error is
returned and nothing is aggregated; otherwise the row loop runs and the
aggregates are returned. The error value is the io::Error, modelled as
an opaque string. -/
def process_csv_file (cutoff : NaiveDateTime)
    (contents : Except String (List CsvRow)) : Except String AggregatedData :=
  match contents with
  | .error e => .error e
  | .ok rows => .ok (processRows cutoff rows)

/-- What main knows about one selected file: the cutoff computed when
the file is processed (now is re-captured per file) and the outcome of
opening it, holding the row stream on success. -/
abbrev FileRead := NaiveDateTime × Except String (List CsvRow)

/-- The four merge loops of main, folding one per-file AggregatedData
into the global maps key by key. -/
def mergeAgg (g p : AggregatedData) : AggregatedData :=
  { priorities_count := HMap.mergeInto g.priorities_count p.priorities_count
    threat_sources := HMap.mergeInto g.threat_sources p.threat_sources
    threat_destinations := HMap.mergeInto g.threat_destinations p.threat_destinations
    aware_threats := HMap.mergeInto g.aware_threats p.aware_threats }

/-- The global aggregates main starts from: priorities 0 through 5
pre-seeded with count 0, the other three maps empty. -/
def initGlobal : AggregatedData :=
  { priorities_count :=
      (List.range 6).foldl (fun m p => HMap.insert m (Nat.repr p) 0) []
    threat_sources := []
    threat_destinations := []
    aware_threats := [] }

/-- The file loop of main: process each selected file and merge its
aggregates into the running global aggregates; a file that fails to
open makes the whole run return its error (question-mark operator in
main), losing all aggregation work. -/
def foldFiles : AggregatedData → List FileRead → Except String AggregatedData
  | acc, [] => .ok acc
  | acc, f :: rest =>
    match process_csv_file f.1 f.2 with
    | .error e => .error e
    | .ok p => foldFiles (mergeAgg acc p) rest

/-- Vec::sort_by with the comparator that orders by count descending
(stable; ties keep map iteration order, which is unspecified). -/
def sortDescByCount (m : HMap) : List (String × Nat) :=
  m.mergeSort fun a b => decide (b.2 ≤ a.2)

/-- The top-10 selection applied to threat sources and destinations. -/
def topTen (m : HMap) : List (String × Nat) :=
  (sortDescByCount m).take 10

/-- Vec::sort_by ordering priority labels in descending string order. -/
def sortDescByKey (m : HMap) : List (String × Nat) :=
  m.mergeSort fun a b => decide (b.1 ≤ a.1)

/-- Vec::sort_by ordering aware buckets by key ascending. -/
def sortAscByKey (m : HMap) : List (String × Nat) :=
  m.mergeSort fun a b => decide (a.1 ≤ b.1)

/-- A pair of index-aligned JSON arrays: labels and counts, element i
of one belonging with element i of the other. -/
structure ParallelArrays where
  labels : List String
  counts : List Nat
deriving DecidableEq

/-- A list of pairs serialized as two parallel arrays. -/
def toArrays (l : List (String × Nat)) : ParallelArrays :=
  ⟨l.map Prod.fst, l.map Prod.snd⟩

/-- The events.json document: the four ranked sections. -/
structure EventsDoc where
  priorities : ParallelArrays
  sources : ParallelArrays
  dests : ParallelArrays
  aware : ParallelArrays
deriving DecidableEq

/-- The events.json content built by main from the global aggregates. -/
def mkEventsDoc (g : AggregatedData) : EventsDoc :=
  { priorities := toArrays (sortDescByKey g.priorities_count)
    sources := toArrays (topTen g.threat_sources)
    dests := toArrays (topTen g.threat_destinations)
    aware := toArrays (sortAscByKey g.aware_threats) }

/-- The threat_sources.json content: the complete threat_sources map as
parallel key and value arrays, untruncated and unranked. -/
def mkSourcesDoc (g : AggregatedData) : ParallelArrays :=
  toArrays g.threat_sources

/-- The output stage of a run: the two documents are produced only when
every selected file was processed; the first open failure aborts the
run before anything is written. -/
def runOutputs (files : List FileRead) : Option (EventsDoc × ParallelArrays) :=
  match foldFiles initGlobal files with
  | .error _ => none
  | .ok g => some (mkEventsDoc g, mkSourcesDoc g)

/-- std::fs::Metadata as far as the program reads it: the modification
time of the file as a SystemTime, modelled as signed whole seconds
relative to the Unix epoch (negative for a pre-epoch time), none when
modified() fails (the code then falls back to the current time). -/
structure FileMeta where
  modified : Option Int
deriving DecidableEq

/-- A directory entry: its file name and the outcome of metadata(),
none when the metadata cannot be read. -/
structure DirEntryM where
  name : String
  meta : Option FileMeta
deriving DecidableEq

/-- The largest days value chrono Duration::try_days accepts: the
Duration range is plus or minus i64 max milliseconds, and this is that
many whole days. -/
def maxDurationDays : Int := 106751991167

/-- The cutoff comparison at the end of the filter closure, after
file_time is known: Duration::try_days aborts the process (expect)
beyond the Duration range; subtracting the duration from now and
converting the resulting cutoff timestamp to u64 abort when the cutoff
precedes the epoch (the subtraction overflows the chrono date range or
try_into fails on a negative value, both expect panics); otherwise the
entry passes exactly when file_time is strictly greater. none models
the abort. -/
def checkAgainstCutoff (now : Nat) (days_back : Int) (file_time : Int) :
    Option Bool :=
  if days_back < -maxDurationDays ∨ maxDurationDays < days_back then none
  else
    let comparison_time : Int := (now : Int) - days_back * 86400
    if comparison_time < 0 then none
    else some (decide (file_time > comparison_time))

/-- The predicate of the filter closure on one directory entry, with
none modelling a panic that aborts the whole process. The name test
short-circuits; unreadable metadata yields false without entering the
closure; a readable modification time that precedes the epoch aborts in
duration_since (expect); an unreadable modification time falls back to
the current time. now is the current time in whole seconds since the
epoch (the code captures Local::now for the cutoff and SystemTime::now
for the fallback at nearly the same instant; both are modelled by this
one value). -/
def entryCheck (now : Nat) (days_back : Int) (entry : DirEntryM) :
    Option Bool :=
  if strStarts entry.name "fwddmp.log.tmp" then
    match entry.meta with
    | none => some false
    | some meta =>
      match meta.modified with
      | some t =>
        if t < 0 then none
        else checkAgainstCutoff now days_back t
      | none => checkAgainstCutoff now days_back (now : Int)
  else some false

/-- filter_files: keep the entries whose filter predicate holds,
examining entries in listing order; the first entry whose closure
panics aborts the whole process (none), leaving later entries
unexamined, as the panic inside the Rust filter closure does. -/
def filter_files : List DirEntryM → Nat → Int → Option (List DirEntryM)
  | [], _, _ => some []
  | entry :: rest, now, days_back =>
    match entryCheck now days_back entry with
    | none => none
    | some b =>
      match filter_files rest now days_back with
      | none => none
      | some sel => some (if b then entry :: sel else sel)

/-- What invoking main does before any file work, as a value: exit with
a usage or error message, die in a panic, or proceed into the pipeline
with the directory path and validated days_back. -/
inductive MainOutcome where
  | usageError (code : Nat) (stderrMsg : String)
  | panicked (msg : String)
  | proceed (dir : String) (days_back : Int)
deriving DecidableEq

/-- str::parse::<i64>: an optional sign followed by at least one digit,
nothing else, and the value must fit in a signed 64-bit integer. -/
def parse_i64 (s : String) : Option Int :=
  let core : List Char → Option Int := fun ds =>
    match scanNumber 19 ds with
    | some (n, []) => some (n : Int)
    | _ => none
  let val : Option Int :=
    match s.data with
    | '-' :: rest => (core rest).map Neg.neg
    | '+' :: rest => core rest
    | ds => core ds
  match val with
  | some v => if -(2 ^ 63) ≤ v ∧ v ≤ 2 ^ 63 - 1 then some v else none
  | none => none

/-- The argument handling at the top of main: fewer than three
arguments exit with the usage line; a days_back that does not parse as
i64 panics through expect; a negative days_back exits with code 1 and
an error message; otherwise the run proceeds. -/
def mainArgs (args : List String) : MainOutcome :=
  if args.length < 3 then
    .usageError 1 ("Usage: " ++ args.getD 0 "" ++ " <path_to_log_files> <days_back>")
  else
    match parse_i64 (args.getD 2 "") with
    | none => .panicked "Please provide a valid number for days"
    | some d =>
      if d < 0 then .usageError 1 "Error: <days_back> must be a non-negative number."
      else .proceed (args.getD 1 "") d

/-- The operating-system exit code of each outcome: the explicit code
of std::process::exit, 101 for a Rust panic, none when the run
proceeds past argument handling. -/
def exitCodeOf : MainOutcome → Option Nat
  | .usageError code _ => some code
  | .panicked _ => some 101
  | .proceed _ _ => none


/-- Whether one row of a file passes the inclusion test of the row
loop: it is a well-formed record whose timestamp field parses with the
fixed format to a time strictly after the cutoff. -/
def includedRow (cutoff : NaiveDateTime) (row : CsvRow) : Bool :=
  match row with
  | none => false
  | some record =>
    match parseFixed (getField record 4) with
    | none => false
    | some dt => NaiveDateTime.ltb cutoff dt

/-- The field of a row at a given index; the empty string for an Err
row (which is never included anyway). -/
def rowKey (idx : Nat) (row : CsvRow) : String :=
  match row with
  | none => ""
  | some record => getField record idx

/-- How many included rows of one selected file carry a given source IP
in field 6; zero when the file failed to open. -/
def fileSourceCount (f : FileRead) (k : String) : Nat :=
  match f.2 with
  | .error _ => 0
  | .ok rows => rows.countP fun row => includedRow f.1 row && (rowKey 6 row == k)

/-- The number of included rows carrying a given source IP, summed over
all selected files. -/
def totalSourceCount (files : List FileRead) (k : String) : Nat :=
  (files.map fun f => fileSourceCount f k).sum

/-- The counts stored under one key in the four maps of an aggregate,
bundled so that order-independence can be stated for all mappings at
once. -/
def countsAt (a : AggregatedData) (k : String) : Nat × Nat × Nat × Nat :=
  (HMap.count a.priorities_count k, HMap.count a.threat_sources k,
    HMap.count a.threat_destinations k, HMap.count a.aware_threats k)

/-- The priority labels pre-seeded into the global priorities map. -/
def seededPriorities : List String :=
  ["0", "1", "2", "3", "4", "5"]

/-- Every entry of every map of a per-file aggregate has count one or
more. -/
def allPosAgg (a : AggregatedData) : Prop :=
  HMap.allPos a.priorities_count ∧ HMap.allPos a.threat_sources ∧
    HMap.allPos a.threat_destinations ∧ HMap.allPos a.aware_threats

/-- The invariant of the global aggregates: the six seeded priority
labels are always present; every entry of the three unseeded maps, and
every non-seeded entry of the priorities map, carries a count of at
least 1. -/
def InvAgg (g : AggregatedData) : Prop :=
  (∀ d ∈ seededPriorities, d ∈ HMap.keysList g.priorities_count) ∧
    (∀ e ∈ g.priorities_count, e.1 ∉ seededPriorities → 1 ≤ e.2) ∧
    HMap.allPos g.threat_sources ∧ HMap.allPos g.threat_destinations ∧
    HMap.allPos g.aware_threats

instance (a : AggregatedData) : Decidable (allPosAgg a) := by
  unfold allPosAgg
  infer_instance

instance (g : AggregatedData) : Decidable (InvAgg g) := by
  unfold InvAgg
  infer_instance

/-! ### Association-list map lemmas -/

theorem HMap.keysList_cons (e : String × Nat) (rest : HMap) :
    HMap.keysList (e :: rest) = e.1 :: HMap.keysList rest := rfl

theorem HMap.count_cons (e : String × Nat) (rest : HMap) (k : String) :
    HMap.count (e :: rest) k = if e.1 = k then e.2 else HMap.count rest k := by
  by_cases h : e.1 = k <;> simp [HMap.count, HMap.lookup, h]

theorem HMap.weight_cons (e : String × Nat) (rest : HMap) (k : String) :
    HMap.weight (e :: rest) k =
      (if e.1 = k then e.2 else 0) + HMap.weight rest k := by
  simp [HMap.weight]

theorem HMap.incrBy_cons_eq (e : String × Nat) (rest : HMap) (k : String)
    (c : Nat) (h : e.1 = k) :
    HMap.incrBy (e :: rest) k c = (e.1, e.2 + c) :: rest := by
  simp [HMap.incrBy, h]

theorem HMap.incrBy_cons_ne (e : String × Nat) (rest : HMap) (k : String)
    (c : Nat) (h : ¬e.1 = k) :
    HMap.incrBy (e :: rest) k c = e :: HMap.incrBy rest k c := by
  simp [HMap.incrBy, h]

theorem HMap.lookup_incrBy (m : HMap) (k : String) (c : Nat) (k' : String) :
    HMap.lookup (HMap.incrBy m k c) k' =
      if k' = k then some (HMap.count m k + c) else HMap.lookup m k' := by
  induction m with
  | nil =>
    by_cases h : k' = k
    · subst h
      simp [HMap.incrBy, HMap.lookup, HMap.count]
    · have h2 : ¬k = k' := fun hh => h hh.symm
      simp [HMap.incrBy, HMap.lookup, h, h2]
  | cons e rest ih =>
    by_cases h1 : e.1 = k
    · subst h1
      by_cases h2 : k' = e.1
      · subst h2
        simp [HMap.incrBy, HMap.lookup, HMap.count]
      · have h3 : ¬e.1 = k' := fun hh => h2 hh.symm
        simp [HMap.incrBy, HMap.lookup, h2, h3]
    · by_cases h3 : e.1 = k'
      · have h2 : ¬k' = k := fun hh => h1 (h3.trans hh)
        simp [HMap.incrBy, HMap.lookup, HMap.count, h1, h2, h3]
      · simp [HMap.incrBy, HMap.lookup, HMap.count, h1, h3, ih]

theorem HMap.count_incrBy (m : HMap) (k : String) (c : Nat) (k' : String) :
    HMap.count (HMap.incrBy m k c) k' =
      HMap.count m k' + if k' = k then c else 0 := by
  unfold HMap.count
  rw [HMap.lookup_incrBy]
  by_cases h : k' = k <;> simp [h, HMap.count]

theorem HMap.weight_incrBy (m : HMap) (k : String) (c : Nat) (k' : String) :
    HMap.weight (HMap.incrBy m k c) k' =
      HMap.weight m k' + if k' = k then c else 0 := by
  induction m with
  | nil =>
    by_cases h : k' = k
    · subst h
      simp [HMap.incrBy, HMap.weight]
    · have h2 : ¬k = k' := fun hh => h hh.symm
      simp [HMap.incrBy, HMap.weight, h, h2]
  | cons e rest ih =>
    by_cases h1 : e.1 = k
    · rw [HMap.incrBy_cons_eq e rest k c h1, HMap.weight_cons, HMap.weight_cons]
      subst h1
      by_cases h2 : k' = e.1
      · subst h2
        simp
        omega
      · have h3 : ¬e.1 = k' := fun hh => h2 hh.symm
        simp [h2, h3]
    · rw [HMap.incrBy_cons_ne e rest k c h1, HMap.weight_cons, HMap.weight_cons,
        ih]
      omega

theorem HMap.keysList_incrBy (m : HMap) (k : String) (c : Nat) :
    HMap.keysList (HMap.incrBy m k c) =
      if k ∈ HMap.keysList m then HMap.keysList m
      else HMap.keysList m ++ [k] := by
  induction m with
  | nil => simp [HMap.incrBy, HMap.keysList]
  | cons e rest ih =>
    by_cases h1 : e.1 = k
    · rw [HMap.incrBy_cons_eq e rest k c h1]
      have hcond : k = e.1 ∨ k ∈ HMap.keysList rest := Or.inl h1.symm
      simp [HMap.keysList_cons, List.mem_cons, hcond]
    · have h2 : ¬k = e.1 := fun hh => h1 hh.symm
      rw [HMap.incrBy_cons_ne e rest k c h1, HMap.keysList_cons,
        HMap.keysList_cons, ih]
      by_cases h3 : k ∈ HMap.keysList rest <;>
        simp [h2, h3, List.mem_cons]

theorem HMap.mem_keysList_incrBy (m : HMap) (k : String) (c : Nat)
    (k' : String) :
    k' ∈ HMap.keysList (HMap.incrBy m k c) ↔
      k' ∈ HMap.keysList m ∨ k' = k := by
  rw [HMap.keysList_incrBy]
  by_cases h : k ∈ HMap.keysList m
  · simp only [h, if_true]
    exact ⟨Or.inl, fun hor => hor.elim id fun hk => by rw [hk]; exact h⟩
  · simp [h]

theorem HMap.nodupKeys_incrBy (m : HMap) (k : String) (c : Nat)
    (h : HMap.nodupKeys m) : HMap.nodupKeys (HMap.incrBy m k c) := by
  unfold HMap.nodupKeys at h ⊢
  rw [HMap.keysList_incrBy]
  by_cases hk : k ∈ HMap.keysList m
  · simpa [hk] using h
  · simp [hk, List.nodup_append, h]

theorem HMap.posOn_incrBy (P : String → Prop) (m : HMap) (k : String) (c : Nat)
    (hm : ∀ e ∈ m, P e.1 → 1 ≤ e.2) (hc : 1 ≤ c) :
    ∀ e ∈ HMap.incrBy m k c, P e.1 → 1 ≤ e.2 := by
  induction m with
  | nil =>
    intro e he _
    rcases List.mem_singleton.mp he with rfl
    exact hc
  | cons e0 rest ih =>
    intro e he hP
    by_cases h1 : e0.1 = k
    · rw [HMap.incrBy_cons_eq e0 rest k c h1] at he
      rcases List.mem_cons.mp he with rfl | h
      · exact le_trans hc (Nat.le_add_left c e0.2)
      · exact hm e (List.mem_cons_of_mem _ h) hP
    · rw [HMap.incrBy_cons_ne e0 rest k c h1] at he
      rcases List.mem_cons.mp he with rfl | h
      · exact hm e (List.mem_cons_self _ _) hP
      · exact ih (fun x hx => hm x (List.mem_cons_of_mem _ hx)) e h hP

theorem HMap.allPos_incrBy (m : HMap) (k : String) (c : Nat)
    (hm : HMap.allPos m) (hc : 1 ≤ c) : HMap.allPos (HMap.incrBy m k c) :=
  fun e he => HMap.posOn_incrBy (fun _ => True) m k c
    (fun x hx _ => hm x hx) hc e he trivial

theorem HMap.mergeInto_cons (g : HMap) (e : String × Nat) (rest : HMap) :
    HMap.mergeInto g (e :: rest) = HMap.mergeInto (HMap.incrBy g e.1 e.2) rest :=
  rfl

theorem HMap.count_mergeInto (g p : HMap) (k : String) :
    HMap.count (HMap.mergeInto g p) k = HMap.count g k + HMap.weight p k := by
  induction p generalizing g with
  | nil => simp [HMap.mergeInto, HMap.weight, HMap.count]
  | cons e rest ih =>
    rw [HMap.mergeInto_cons, ih, HMap.count_incrBy, HMap.weight_cons]
    by_cases h : k = e.1
    · simp [h]
      omega
    · have h2 : ¬e.1 = k := fun hh => h hh.symm
      simp [h, h2]

theorem HMap.mem_keysList_mergeInto (g p : HMap) (k : String) :
    k ∈ HMap.keysList (HMap.mergeInto g p) ↔
      k ∈ HMap.keysList g ∨ k ∈ HMap.keysList p := by
  induction p generalizing g with
  | nil => simp [HMap.mergeInto, HMap.keysList]
  | cons e rest ih =>
    rw [HMap.mergeInto_cons, ih, HMap.mem_keysList_incrBy, HMap.keysList_cons]
    simp [List.mem_cons, or_assoc]

theorem HMap.nodupKeys_mergeInto (g p : HMap) (h : HMap.nodupKeys g) :
    HMap.nodupKeys (HMap.mergeInto g p) := by
  induction p generalizing g with
  | nil => exact h
  | cons e rest ih =>
    rw [HMap.mergeInto_cons]
    exact ih _ (HMap.nodupKeys_incrBy _ _ _ h)

theorem HMap.posOn_mergeInto (P : String → Prop) (g p : HMap)
    (hg : ∀ e ∈ g, P e.1 → 1 ≤ e.2) (hp : HMap.allPos p) :
    ∀ e ∈ HMap.mergeInto g p, P e.1 → 1 ≤ e.2 := by
  induction p generalizing g with
  | nil => exact hg
  | cons e0 rest ih =>
    rw [HMap.mergeInto_cons]
    exact ih _
      (HMap.posOn_incrBy P g e0.1 e0.2 hg (hp e0 (List.mem_cons_self _ _)))
      (fun x hx => hp x (List.mem_cons_of_mem _ hx))

theorem HMap.allPos_mergeInto (g p : HMap) (hg : HMap.allPos g)
    (hp : HMap.allPos p) : HMap.allPos (HMap.mergeInto g p) :=
  fun e he => HMap.posOn_mergeInto (fun _ => True) g p
    (fun x hx _ => hg x hx) hp e he trivial

theorem HMap.lookup_eq_none (m : HMap) (k : String) :
    HMap.lookup m k = none ↔ k ∉ HMap.keysList m := by
  induction m with
  | nil => simp [HMap.lookup, HMap.keysList]
  | cons e rest ih =>
    rw [HMap.keysList_cons]
    by_cases h : e.1 = k
    · simp [HMap.lookup, h, List.mem_cons]
    · have h2 : ¬k = e.1 := fun hh => h hh.symm
      simp only [HMap.lookup, h, if_false, List.mem_cons, ih]
      constructor
      · intro hnk hor
        rcases hor with h3 | h3
        · exact h2 h3
        · exact hnk h3
      · intro hnor h3
        exact hnor (Or.inr h3)

theorem HMap.lookup_eq_some_count (m : HMap) (k : String)
    (h : k ∈ HMap.keysList m) : HMap.lookup m k = some (HMap.count m k) := by
  cases hl : HMap.lookup m k with
  | none => exact absurd h ((HMap.lookup_eq_none m k).mp hl)
  | some v => simp [HMap.count, hl]

theorem HMap.weight_eq_zero (m : HMap) (k : String)
    (h : k ∉ HMap.keysList m) : HMap.weight m k = 0 := by
  induction m with
  | nil => simp [HMap.weight]
  | cons e rest ih =>
    rw [HMap.keysList_cons, List.mem_cons] at h
    push_neg at h
    have h1 : ¬e.1 = k := fun hh => h.1 hh.symm
    rw [HMap.weight_cons, ih h.2]
    simp [h1]

theorem HMap.weight_eq_count (m : HMap) (k : String)
    (h : HMap.nodupKeys m) : HMap.weight m k = HMap.count m k := by
  induction m with
  | nil => rfl
  | cons e rest ih =>
    have hnd : e.1 ∉ HMap.keysList rest ∧ HMap.nodupKeys rest := by
      unfold HMap.nodupKeys at h
      rw [HMap.keysList_cons] at h
      exact List.nodup_cons.mp h
    rw [HMap.weight_cons, HMap.count_cons]
    by_cases h1 : e.1 = k
    · rw [← h1, HMap.weight_eq_zero rest e.1 hnd.1]
      simp [h1]
    · simp only [h1, if_false]
      rw [ih hnd.2]
      simp

theorem HMap.lookup_of_mem_nodup (m : HMap) (e : String × Nat)
    (h : HMap.nodupKeys m) (he : e ∈ m) : HMap.lookup m e.1 = some e.2 := by
  induction m with
  | nil => cases he
  | cons e0 rest ih =>
    have hnd : e0.1 ∉ HMap.keysList rest ∧ HMap.nodupKeys rest := by
      unfold HMap.nodupKeys at h
      rw [HMap.keysList_cons] at h
      exact List.nodup_cons.mp h
    rcases List.mem_cons.mp he with rfl | h1
    · simp [HMap.lookup]
    · have hne : ¬e0.1 = e.1 := by
        intro hh
        apply hnd.1
        rw [hh]
        exact List.mem_map_of_mem Prod.fst h1
      simp only [HMap.lookup, hne, if_false]
      exact ih hnd.2 h1

theorem HMap.count_pos_of_mem (m : HMap) (k : String)
    (hpos : HMap.allPos m) (h : k ∈ HMap.keysList m) : 1 ≤ HMap.count m k := by
  induction m with
  | nil => cases h
  | cons e rest ih =>
    rw [HMap.keysList_cons] at h
    rw [HMap.count_cons]
    by_cases h2 : e.1 = k
    · have := hpos e (List.mem_cons_self _ _)
      simp [h2]
      omega
    · rcases List.mem_cons.mp h with h3 | h3
      · exact absurd h3.symm h2
      · simp only [h2, if_false]
        exact ih (fun x hx => hpos x (List.mem_cons_of_mem _ hx)) h3

theorem HMap.count_eq_zero_of_not_mem (m : HMap) (k : String)
    (h : k ∉ HMap.keysList m) : HMap.count m k = 0 := by
  simp [HMap.count, (HMap.lookup_eq_none m k).mpr h]

/-! ### Row-processing lemmas -/

theorem processResult_err (cutoff : NaiveDateTime) (acc : AggregatedData) :
    processResult cutoff acc none = acc := rfl

theorem processResult_not_parsed (cutoff : NaiveDateTime)
    (acc : AggregatedData) (record : List String)
    (h : parseFixed (getField record 4) = none) :
    processResult cutoff acc (some record) = acc := by
  simp [processResult, h]

theorem processResult_not_after (cutoff : NaiveDateTime)
    (acc : AggregatedData) (record : List String) (dt : NaiveDateTime)
    (h : parseFixed (getField record 4) = some dt)
    (h2 : NaiveDateTime.ltb cutoff dt = false) :
    processResult cutoff acc (some record) = acc := by
  simp [processResult, h, h2]

theorem processResult_included (cutoff : NaiveDateTime)
    (acc : AggregatedData) (record : List String) (dt : NaiveDateTime)
    (h : parseFixed (getField record 4) = some dt)
    (h2 : NaiveDateTime.ltb cutoff dt = true) :
    processResult cutoff acc (some record) =
      { priorities_count := HMap.incr acc.priorities_count (getField record 1)
        threat_sources := HMap.incr acc.threat_sources (getField record 6)
        threat_destinations :=
          HMap.incr acc.threat_destinations (getField record 12)
        aware_threats :=
          if strContains (getField record 3) "AWARE" then
            HMap.incr acc.aware_threats (bucketKey dt)
          else acc.aware_threats } := by
  simp [processResult, h, h2]

theorem count_ts_foldl_rows (cutoff : NaiveDateTime) (rows : List CsvRow)
    (acc : AggregatedData) (k : String) :
    HMap.count (rows.foldl (processResult cutoff) acc).threat_sources k =
      HMap.count acc.threat_sources k +
        rows.countP (fun row => includedRow cutoff row && (rowKey 6 row == k)) := by
  induction rows generalizing acc with
  | nil => simp
  | cons row rest ih =>
    have step : HMap.count (processResult cutoff acc row).threat_sources k =
        HMap.count acc.threat_sources k +
          (if (includedRow cutoff row && (rowKey 6 row == k)) = true
            then 1 else 0) := by
      cases row with
      | none => simp [processResult_err, includedRow]
      | some record =>
        cases hp : parseFixed (getField record 4) with
        | none =>
          simp [processResult_not_parsed cutoff acc record hp, includedRow, hp]
        | some dt =>
          cases hlt : NaiveDateTime.ltb cutoff dt with
          | false =>
            simp [processResult_not_after cutoff acc record dt hp hlt,
              includedRow, hp, hlt]
          | true =>
            rw [processResult_included cutoff acc record dt hp hlt]
            simp only [HMap.incr]
            rw [HMap.count_incrBy]
            simp only [includedRow, rowKey, hp, hlt, Bool.true_and]
            by_cases hk : getField record 6 = k
            · simp [hk]
            · have hk2 : ¬k = getField record 6 := fun hh => hk hh.symm
              simp [hk, hk2]
    rw [List.foldl_cons, ih, step, List.countP_cons]
    cases hb : includedRow cutoff row && (rowKey 6 row == k) <;> simp [hb]
    all_goals omega

theorem allPosAgg_processResult (cutoff : NaiveDateTime)
    (acc : AggregatedData) (row : CsvRow) (h : allPosAgg acc) :
    allPosAgg (processResult cutoff acc row) := by
  cases row with
  | none => exact h
  | some record =>
    cases hp : parseFixed (getField record 4) with
    | none => rw [processResult_not_parsed _ _ _ hp]; exact h
    | some dt =>
      cases hlt : NaiveDateTime.ltb cutoff dt with
      | false => rw [processResult_not_after _ _ _ _ hp hlt]; exact h
      | true =>
        rw [processResult_included _ _ _ _ hp hlt]
        obtain ⟨h1, h2, h3, h4⟩ := h
        refine ⟨HMap.allPos_incrBy _ _ _ h1 le_rfl,
          HMap.allPos_incrBy _ _ _ h2 le_rfl,
          HMap.allPos_incrBy _ _ _ h3 le_rfl, ?_⟩
        by_cases hA : strContains (getField record 3) "AWARE"
        · simpa [hA] using HMap.allPos_incrBy _ _ 1 h4 le_rfl
        · simpa [hA] using h4

theorem allPosAgg_empty : allPosAgg emptyAgg := by
  refine ⟨?_, ?_, ?_, ?_⟩ <;> intro e he <;> cases he

theorem allPosAgg_processRows (cutoff : NaiveDateTime) (rows : List CsvRow) :
    allPosAgg (processRows cutoff rows) := by
  have aux : ∀ acc, allPosAgg acc →
      allPosAgg (rows.foldl (processResult cutoff) acc) := by
    induction rows with
    | nil => exact fun acc h => h
    | cons row rest ih =>
      intro acc h
      rw [List.foldl_cons]
      exact ih _ (allPosAgg_processResult cutoff acc row h)
  exact aux emptyAgg allPosAgg_empty

theorem nodup_ts_processResult (cutoff : NaiveDateTime)
    (acc : AggregatedData) (row : CsvRow)
    (h : HMap.nodupKeys acc.threat_sources) :
    HMap.nodupKeys (processResult cutoff acc row).threat_sources := by
  cases row with
  | none => exact h
  | some record =>
    cases hp : parseFixed (getField record 4) with
    | none => rw [processResult_not_parsed _ _ _ hp]; exact h
    | some dt =>
      cases hlt : NaiveDateTime.ltb cutoff dt with
      | false => rw [processResult_not_after _ _ _ _ hp hlt]; exact h
      | true =>
        rw [processResult_included _ _ _ _ hp hlt]
        exact HMap.nodupKeys_incrBy _ _ _ h

theorem nodup_ts_processRows (cutoff : NaiveDateTime) (rows : List CsvRow) :
    HMap.nodupKeys (processRows cutoff rows).threat_sources := by
  have aux : ∀ acc, HMap.nodupKeys acc.threat_sources →
      HMap.nodupKeys (rows.foldl (processResult cutoff) acc).threat_sources := by
    induction rows with
    | nil => exact fun acc h => h
    | cons row rest ih =>
      intro acc h
      rw [List.foldl_cons]
      exact ih _ (nodup_ts_processResult cutoff acc row h)
  exact aux emptyAgg List.nodup_nil

/-! ### File-fold lemmas -/

theorem foldFiles_nil (acc : AggregatedData) : foldFiles acc [] = .ok acc := rfl

theorem foldFiles_cons_err (acc : AggregatedData) (f : FileRead)
    (rest : List FileRead) (e : String) (h : f.2 = .error e) :
    foldFiles acc (f :: rest) = .error e := by
  simp [foldFiles, process_csv_file, h]

theorem foldFiles_cons_ok (acc : AggregatedData) (f : FileRead)
    (rest : List FileRead) (rows : List CsvRow) (h : f.2 = .ok rows) :
    foldFiles acc (f :: rest) =
      foldFiles (mergeAgg acc (processRows f.1 rows)) rest := by
  simp [foldFiles, process_csv_file, h]

theorem totalSourceCount_cons (f : FileRead) (rest : List FileRead)
    (k : String) :
    totalSourceCount (f :: rest) k =
      fileSourceCount f k + totalSourceCount rest k := by
  simp [totalSourceCount]

theorem foldFiles_count_ts (files : List FileRead) :
    ∀ acc g, foldFiles acc files = .ok g → ∀ k,
      HMap.count g.threat_sources k =
        HMap.count acc.threat_sources k + totalSourceCount files k := by
  induction files with
  | nil =>
    intro acc g h k
    rw [foldFiles_nil] at h
    cases h
    simp [totalSourceCount]
  | cons f rest ih =>
    intro acc g h k
    cases hf : f.2 with
    | error e =>
      rw [foldFiles_cons_err acc f rest e hf] at h
      cases h
    | ok rows =>
      rw [foldFiles_cons_ok acc f rest rows hf] at h
      have hmerge : HMap.count (mergeAgg acc (processRows f.1 rows)).threat_sources k =
          HMap.count acc.threat_sources k + fileSourceCount f k := by
        have hw : HMap.weight (processRows f.1 rows).threat_sources k =
            HMap.count (processRows f.1 rows).threat_sources k :=
          HMap.weight_eq_count _ _ (nodup_ts_processRows f.1 rows)
        have hc : HMap.count (processRows f.1 rows).threat_sources k =
            fileSourceCount f k := by
          have := count_ts_foldl_rows f.1 rows emptyAgg k
          simp only [processRows]
          rw [this]
          simp [fileSourceCount, hf, emptyAgg, HMap.count, HMap.lookup]
        calc HMap.count (mergeAgg acc (processRows f.1 rows)).threat_sources k
            = HMap.count acc.threat_sources k +
                HMap.weight (processRows f.1 rows).threat_sources k :=
              HMap.count_mergeInto _ _ _
          _ = HMap.count acc.threat_sources k + fileSourceCount f k := by
              rw [hw, hc]
      rw [ih _ _ h k, hmerge, totalSourceCount_cons]
      omega

theorem foldFiles_allPos_ts (files : List FileRead) :
    ∀ acc g, foldFiles acc files = .ok g →
      HMap.allPos acc.threat_sources → HMap.allPos g.threat_sources := by
  induction files with
  | nil =>
    intro acc g h hacc
    rw [foldFiles_nil] at h
    cases h
    exact hacc
  | cons f rest ih =>
    intro acc g h hacc
    cases hf : f.2 with
    | error e =>
      rw [foldFiles_cons_err acc f rest e hf] at h
      cases h
    | ok rows =>
      rw [foldFiles_cons_ok acc f rest rows hf] at h
      exact ih _ _ h
        (HMap.allPos_mergeInto _ _ hacc
          (allPosAgg_processRows f.1 rows).2.1)

theorem foldFiles_nodup_ts (files : List FileRead) :
    ∀ acc g, foldFiles acc files = .ok g →
      HMap.nodupKeys acc.threat_sources → HMap.nodupKeys g.threat_sources := by
  induction files with
  | nil =>
    intro acc g h hacc
    rw [foldFiles_nil] at h
    cases h
    exact hacc
  | cons f rest ih =>
    intro acc g h hacc
    cases hf : f.2 with
    | error e =>
      rw [foldFiles_cons_err acc f rest e hf] at h
      cases h
    | ok rows =>
      rw [foldFiles_cons_ok acc f rest rows hf] at h
      exact ih _ _ h (HMap.nodupKeys_mergeInto _ _ hacc)

theorem InvAgg_mergeAgg (g p : AggregatedData) (hg : InvAgg g)
    (hp : allPosAgg p) : InvAgg (mergeAgg g p) := by
  obtain ⟨h1, h2, h3, h4, h5⟩ := hg
  obtain ⟨p1, p2, p3, p4⟩ := hp
  refine ⟨fun d hd => (HMap.mem_keysList_mergeInto _ _ _).mpr (Or.inl (h1 d hd)),
    ?_, ?_, ?_, ?_⟩
  · exact HMap.posOn_mergeInto (fun k => k ∉ seededPriorities)
      g.priorities_count p.priorities_count h2 p1
  · exact HMap.allPos_mergeInto _ _ h3 p2
  · exact HMap.allPos_mergeInto _ _ h4 p3
  · exact HMap.allPos_mergeInto _ _ h5 p4

theorem foldFiles_InvAgg (files : List FileRead) :
    ∀ acc g, foldFiles acc files = .ok g → InvAgg acc → InvAgg g := by
  induction files with
  | nil =>
    intro acc g h hacc
    rw [foldFiles_nil] at h
    cases h
    exact hacc
  | cons f rest ih =>
    intro acc g h hacc
    cases hf : f.2 with
    | error e =>
      rw [foldFiles_cons_err acc f rest e hf] at h
      cases h
    | ok rows =>
      rw [foldFiles_cons_ok acc f rest rows hf] at h
      exact ih _ _ h (InvAgg_mergeAgg acc _ hacc (allPosAgg_processRows f.1 rows))

theorem foldFiles_ok_of_mem (files : List FileRead) :
    ∀ acc g, foldFiles acc files = .ok g →
      ∀ f ∈ files, (f.2).isOk = true := by
  induction files with
  | nil => intro acc g _ f hf; cases hf
  | cons f0 rest ih =>
    intro acc g h f hf
    cases hf0 : f0.2 with
    | error e =>
      rw [foldFiles_cons_err acc f0 rest e hf0] at h
      cases h
    | ok rows =>
      rw [foldFiles_cons_ok acc f0 rest rows hf0] at h
      rcases List.mem_cons.mp hf with rfl | hmem
      · simp [hf0, Except.isOk, Except.toBool]
      · exact ih _ _ h f hmem

/-! ### Claims -/

/-- C1: a row of a processed file contributes to the aggregates if and
only if its timestamp field (index 4) parses with the fixed format and
the parsed time is strictly greater than the cutoff captured for the
file; a row whose timestamp fails to parse, or is at or before the
cutoff, leaves all four mappings unchanged. -/
theorem c1_row_inclusion (cutoff : NaiveDateTime) (acc : AggregatedData)
    (record : List String) :
    processResult cutoff acc (some record) ≠ acc ↔
      ∃ dt, parseFixed (getField record 4) = some dt ∧
        NaiveDateTime.ltb cutoff dt = true := by
  constructor
  · intro hne
    by_contra hnex
    push_neg at hnex
    apply hne
    cases hp : parseFixed (getField record 4) with
    | none => exact processResult_not_parsed cutoff acc record hp
    | some dt =>
      have hlt := hnex dt hp
      exact processResult_not_after cutoff acc record dt hp
        (Bool.eq_false_iff.mpr hlt)
  · rintro ⟨dt, hp, hlt⟩
    rw [processResult_included cutoff acc record dt hp hlt]
    intro heq
    have hfield := congrArg AggregatedData.priorities_count heq
    simp only [] at hfield
    have hcnt := congrArg
      (fun m => HMap.count m (getField record 1)) hfield
    simp only [HMap.incr, HMap.count_incrBy] at hcnt
    simp at hcnt

/-- C2: an included row whose flags field (index 3) contains the
substring AWARE increments exactly one aware_threats bucket, keyed by
the calendar date and AM for hours below 12, PM otherwise; in
particular the timestamp 2024/03/01 09:00:00 yields bucket
2024-03-01 AM and 2024/03/01 13:00:00 yields 2024-03-01 PM. -/
theorem c2_aware_bucket (cutoff : NaiveDateTime) (acc : AggregatedData)
    (record : List String) (dt : NaiveDateTime)
    (hp : parseFixed (getField record 4) = some dt)
    (hlt : NaiveDateTime.ltb cutoff dt = true)
    (hA : strContains (getField record 3) "AWARE" = true) :
    (∀ k, HMap.count (processResult cutoff acc (some record)).aware_threats k =
        HMap.count acc.aware_threats k + (if k = bucketKey dt then 1 else 0)) ∧
    parseFixed "2024/03/01 09:00:00" = some ⟨2024, 3, 1, 9, 0, 0⟩ ∧
    bucketKey ⟨2024, 3, 1, 9, 0, 0⟩ = "2024-03-01 AM" ∧
    parseFixed "2024/03/01 13:00:00" = some ⟨2024, 3, 1, 13, 0, 0⟩ ∧
    bucketKey ⟨2024, 3, 1, 13, 0, 0⟩ = "2024-03-01 PM" := by
  refine ⟨?_, by decide, by decide, by decide, by decide⟩
  intro k
  rw [processResult_included cutoff acc record dt hp hlt]
  simp only [hA, if_true]
  simp only [HMap.incr]
  rw [HMap.count_incrBy]

/-- Witness for C2 at a concrete AWARE row. -/
theorem c2_aware_bucket_witness :
    HMap.count (processResult ⟨2024, 1, 1, 0, 0, 0⟩ emptyAgg
        (some ["x", "1", "x", "AWARE-HIGH", "2024/03/01 09:00:00", "x",
          "10.0.0.1"])).aware_threats "2024-03-01 AM" =
      HMap.count emptyAgg.aware_threats "2024-03-01 AM" +
        (if ("2024-03-01 AM" : String) = bucketKey ⟨2024, 3, 1, 9, 0, 0⟩
          then 1 else 0) :=
  (c2_aware_bucket ⟨2024, 1, 1, 0, 0, 0⟩ emptyAgg
    ["x", "1", "x", "AWARE-HIGH", "2024/03/01 09:00:00", "x", "10.0.0.1"]
    ⟨2024, 3, 1, 9, 0, 0⟩ (by decide) (by decide) (by decide)).1
    "2024-03-01 AM"

/-- C5: every included row adds exactly 1 to priorities_count under
field 1, to threat_sources under field 6 and to threat_destinations
under field 12, leaving every other key unchanged; a field index past
the end of the record reads as the empty string, so short rows are
still counted (under empty-string keys). -/
theorem c5_field_extraction (cutoff : NaiveDateTime) (acc : AggregatedData)
    (record : List String) (dt : NaiveDateTime)
    (hp : parseFixed (getField record 4) = some dt)
    (hlt : NaiveDateTime.ltb cutoff dt = true) :
    (∀ k, HMap.count
        (processResult cutoff acc (some record)).priorities_count k =
      HMap.count acc.priorities_count k +
        (if k = getField record 1 then 1 else 0)) ∧
    (∀ k, HMap.count
        (processResult cutoff acc (some record)).threat_sources k =
      HMap.count acc.threat_sources k +
        (if k = getField record 6 then 1 else 0)) ∧
    (∀ k, HMap.count
        (processResult cutoff acc (some record)).threat_destinations k =
      HMap.count acc.threat_destinations k +
        (if k = getField record 12 then 1 else 0)) ∧
    (∀ i, record.length ≤ i → getField record i = "") := by
  rw [processResult_included cutoff acc record dt hp hlt]
  refine ⟨?_, ?_, ?_, ?_⟩
  · intro k
    simp only [HMap.incr]
    rw [HMap.count_incrBy]
  · intro k
    simp only [HMap.incr]
    rw [HMap.count_incrBy]
  · intro k
    simp only [HMap.incr]
    rw [HMap.count_incrBy]
  · intro i hi
    exact List.getD_eq_default record "" hi

/-- Witness for C5 at a concrete short row (length 5, so fields 6 and
12 read as the empty string). -/
theorem c5_field_extraction_witness :
    HMap.count (processResult ⟨2024, 1, 1, 0, 0, 0⟩ emptyAgg
        (some ["x", "1", "x", "f", "2024/03/01 09:00:00"])).threat_sources "" =
      HMap.count emptyAgg.threat_sources "" +
        (if ("" : String) = getField ["x", "1", "x", "f", "2024/03/01 09:00:00"] 6
          then 1 else 0) :=
  (c5_field_extraction ⟨2024, 1, 1, 0, 0, 0⟩ emptyAgg
    ["x", "1", "x", "f", "2024/03/01 09:00:00"] ⟨2024, 3, 1, 9, 0, 0⟩
    (by decide) (by decide)).2.1 ""

/-- C10: when the AWARE branch is reached, the second parse of the
timestamp field runs on the same string that already parsed in the
guard, so it succeeds and the inner parse-failure branch is dead: the
row increments exactly one aware_threats bucket. -/
theorem c10_inner_parse (cutoff : NaiveDateTime) (acc : AggregatedData)
    (record : List String) (dt : NaiveDateTime)
    (hp : parseFixed (getField record 4) = some dt)
    (hlt : NaiveDateTime.ltb cutoff dt = true)
    (hA : strContains (getField record 3) "AWARE" = true) :
    (parseFixed (getField record 4)).isSome = true ∧
    (processResult cutoff acc (some record)).aware_threats =
      HMap.incr acc.aware_threats (bucketKey dt) := by
  refine ⟨by simp [hp], ?_⟩
  rw [processResult_included cutoff acc record dt hp hlt]
  simp [hA]

/-- Witness for C10 at a concrete AWARE row. -/
theorem c10_inner_parse_witness :
    (processResult ⟨2024, 1, 1, 0, 0, 0⟩ emptyAgg
        (some ["x", "1", "x", "AWARE", "2024/03/01 13:00:00", "x",
          "10.0.0.2"])).aware_threats =
      HMap.incr emptyAgg.aware_threats (bucketKey ⟨2024, 3, 1, 13, 0, 0⟩) :=
  (c10_inner_parse ⟨2024, 1, 1, 0, 0, 0⟩ emptyAgg
    ["x", "1", "x", "AWARE", "2024/03/01 13:00:00", "x", "10.0.0.2"]
    ⟨2024, 3, 1, 13, 0, 0⟩ (by decide) (by decide) (by decide)).2

theorem count_foldl_mergeAgg (proj : AggregatedData → HMap)
    (hproj : ∀ a b, proj (mergeAgg a b) = HMap.mergeInto (proj a) (proj b))
    (ps : List AggregatedData) (g : AggregatedData) (k : String) :
    HMap.count (proj (ps.foldl mergeAgg g)) k =
      HMap.count (proj g) k +
        (ps.map fun p => HMap.weight (proj p) k).sum := by
  induction ps generalizing g with
  | nil => simp
  | cons p rest ih =>
    rw [List.foldl_cons, ih, hproj, HMap.count_mergeInto]
    simp only [List.map_cons, List.sum_cons]
    omega

/-- C3: the merge step is per-key addition (adding the partial count to
the global count, inserting the partial value when the key is absent),
and merging is order-insensitive: swapping two partials gives the same
counts in all four mappings, and folding any permutation of a list of
partials gives the same counts, so the result does not depend on
file-processing order. -/
theorem c3_merge_commutes :
    (∀ (g p : HMap) (k : String), HMap.nodupKeys p →
      HMap.count (HMap.mergeInto g p) k = HMap.count g k + HMap.count p k ∧
      (HMap.lookup g k = none →
        HMap.lookup (HMap.mergeInto g p) k = HMap.lookup p k)) ∧
    (∀ (g A B : AggregatedData) (k : String),
      countsAt (mergeAgg (mergeAgg g A) B) k =
        countsAt (mergeAgg (mergeAgg g B) A) k) ∧
    (∀ (g : AggregatedData) (ps qs : List AggregatedData), ps.Perm qs →
      ∀ k, countsAt (ps.foldl mergeAgg g) k =
        countsAt (qs.foldl mergeAgg g) k) := by
  refine ⟨?_, ?_, ?_⟩
  · intro g p k hnd
    constructor
    · rw [HMap.count_mergeInto, HMap.weight_eq_count p k hnd]
    · intro hg
      have hgmem : k ∉ HMap.keysList g := (HMap.lookup_eq_none g k).mp hg
      by_cases hpmem : k ∈ HMap.keysList p
      · have hmem : k ∈ HMap.keysList (HMap.mergeInto g p) :=
          (HMap.mem_keysList_mergeInto g p k).mpr (Or.inr hpmem)
        rw [HMap.lookup_eq_some_count _ _ hmem, HMap.count_mergeInto,
          HMap.count_eq_zero_of_not_mem g k hgmem,
          HMap.weight_eq_count p k hnd, HMap.lookup_eq_some_count _ _ hpmem]
        simp
      · have hmem : k ∉ HMap.keysList (HMap.mergeInto g p) := by
          rw [HMap.mem_keysList_mergeInto]
          rintro (h | h)
          · exact hgmem h
          · exact hpmem h
        rw [(HMap.lookup_eq_none _ k).mpr hmem,
          (HMap.lookup_eq_none p k).mpr hpmem]
  · intro g A B k
    simp only [countsAt, mergeAgg, HMap.count_mergeInto, Prod.mk.injEq]
    refine ⟨by omega, by omega, by omega, by omega⟩
  · intro g ps qs hperm k
    have h1 := count_foldl_mergeAgg (fun a => a.priorities_count)
      (fun _ _ => rfl) ps g k
    have h2 := count_foldl_mergeAgg (fun a => a.priorities_count)
      (fun _ _ => rfl) qs g k
    have h3 := count_foldl_mergeAgg (fun a => a.threat_sources)
      (fun _ _ => rfl) ps g k
    have h4 := count_foldl_mergeAgg (fun a => a.threat_sources)
      (fun _ _ => rfl) qs g k
    have h5 := count_foldl_mergeAgg (fun a => a.threat_destinations)
      (fun _ _ => rfl) ps g k
    have h6 := count_foldl_mergeAgg (fun a => a.threat_destinations)
      (fun _ _ => rfl) qs g k
    have h7 := count_foldl_mergeAgg (fun a => a.aware_threats)
      (fun _ _ => rfl) ps g k
    have h8 := count_foldl_mergeAgg (fun a => a.aware_threats)
      (fun _ _ => rfl) qs g k
    have s1 : (ps.map fun p => HMap.weight p.priorities_count k).sum =
        (qs.map fun p => HMap.weight p.priorities_count k).sum :=
      (hperm.map _).sum_eq
    have s3 : (ps.map fun p => HMap.weight p.threat_sources k).sum =
        (qs.map fun p => HMap.weight p.threat_sources k).sum :=
      (hperm.map _).sum_eq
    have s5 : (ps.map fun p => HMap.weight p.threat_destinations k).sum =
        (qs.map fun p => HMap.weight p.threat_destinations k).sum :=
      (hperm.map _).sum_eq
    have s7 : (ps.map fun p => HMap.weight p.aware_threats k).sum =
        (qs.map fun p => HMap.weight p.aware_threats k).sum :=
      (hperm.map _).sum_eq
    simp only [countsAt, Prod.mk.injEq]
    refine ⟨?_, ?_, ?_, ?_⟩ <;> simp only [] at h1 h2 h3 h4 h5 h6 h7 h8 <;>
      omega

/-- Witness for C3: addition on a concrete merge, and a concrete
two-file permutation. -/
theorem c3_merge_commutes_witness :
    HMap.count (HMap.mergeInto [("a", 2)] [("a", 3), ("b", 1)]) "a" =
      HMap.count [("a", 2)] "a" + HMap.count [("a", 3), ("b", 1)] "a" ∧
    countsAt (List.foldl mergeAgg initGlobal
        [(⟨[("1", 1)], [("s", 1)], [], []⟩ : AggregatedData),
          (⟨[("2", 2)], [], [("d", 1)], []⟩ : AggregatedData)]) "1" =
      countsAt (List.foldl mergeAgg initGlobal
        [(⟨[("2", 2)], [], [("d", 1)], []⟩ : AggregatedData),
          (⟨[("1", 1)], [("s", 1)], [], []⟩ : AggregatedData)]) "1" :=
  ⟨(c3_merge_commutes.1 [("a", 2)] [("a", 3), ("b", 1)] "a" (by decide)).1,
    c3_merge_commutes.2.2 initGlobal _ _ (by decide) "1"⟩

/-- C4: the global invariant. The priorities map always holds the keys
0 through 5 (with value 0 before any input, so absent priorities still
surface as 0); the invariant that every key of the three unseeded maps
and every non-seeded priorities key has count at least 1 holds of the
initial global aggregates, is preserved by every merge step, and thus
holds at output time for every run. -/
theorem c4_global_invariant :
    (∀ d ∈ seededPriorities,
      HMap.lookup initGlobal.priorities_count d = some 0) ∧
    (∀ (g : AggregatedData) (cutoff : NaiveDateTime) (rows : List CsvRow),
      InvAgg g → InvAgg (mergeAgg g (processRows cutoff rows))) ∧
    (∀ (files : List FileRead) (g : AggregatedData),
      foldFiles initGlobal files = Except.ok g → InvAgg g) := by
  refine ⟨by decide, ?_, ?_⟩
  · intro g cutoff rows hg
    exact InvAgg_mergeAgg g _ hg (allPosAgg_processRows cutoff rows)
  · intro files g h
    exact foldFiles_InvAgg files initGlobal g h (by decide)

/-- Witness for C4: the invariant after merging one concrete file
(with a non-seeded priority label) into the initial globals. -/
theorem c4_global_invariant_witness :
    InvAgg (mergeAgg initGlobal (processRows ⟨2024, 1, 1, 0, 0, 0⟩
      [some ["x", "7", "x", "AWARE", "2024/03/01 09:00:00", "x",
        "10.0.0.1"]])) :=
  c4_global_invariant.2.1 initGlobal ⟨2024, 1, 1, 0, 0, 0⟩
    [some ["x", "7", "x", "AWARE", "2024/03/01 09:00:00", "x", "10.0.0.1"]]
    (by decide)

theorem filter_files_nil_eq (now : Nat) (days_back : Int) :
    filter_files [] now days_back = some [] := rfl

theorem filter_files_cons_eq (entry : DirEntryM) (rest : List DirEntryM)
    (now : Nat) (days_back : Int) :
    filter_files (entry :: rest) now days_back =
      match entryCheck now days_back entry with
      | none => none
      | some b =>
        match filter_files rest now days_back with
        | none => none
        | some sel => some (if b then entry :: sel else sel) := rfl

theorem filter_files_run_checks (entries : List DirEntryM) (now : Nat)
    (days_back : Int) (sel : List DirEntryM)
    (hrun : filter_files entries now days_back = some sel) :
    ∀ e ∈ entries, ∃ b, entryCheck now days_back e = some b := by
  induction entries generalizing sel with
  | nil => intro e he; cases he
  | cons e0 rest ih =>
    intro e he
    cases hc : entryCheck now days_back e0 with
    | none => simp [filter_files_cons_eq, hc] at hrun
    | some b =>
      cases hrest : filter_files rest now days_back with
      | none => simp [filter_files_cons_eq, hc, hrest] at hrun
      | some sel2 =>
        rcases List.mem_cons.mp he with rfl | hmem
        · exact ⟨b, hc⟩
        · exact ih sel2 hrest e hmem

theorem mem_filter_files (entries : List DirEntryM) (now : Nat)
    (days_back : Int) (sel : List DirEntryM)
    (hrun : filter_files entries now days_back = some sel) (e : DirEntryM) :
    e ∈ sel ↔ e ∈ entries ∧ entryCheck now days_back e = some true := by
  induction entries generalizing sel with
  | nil =>
    have hsel : sel = [] := by
      rw [filter_files_nil_eq] at hrun
      exact (Option.some.injEq _ _).mp hrun.symm
    subst hsel
    simp
  | cons e0 rest ih =>
    cases hc : entryCheck now days_back e0 with
    | none => simp [filter_files_cons_eq, hc] at hrun
    | some b =>
      cases hrest : filter_files rest now days_back with
      | none => simp [filter_files_cons_eq, hc, hrest] at hrun
      | some sel2 =>
        have hsel : sel = if b then e0 :: sel2 else sel2 := by
          have h2 := hrun
          simp only [filter_files_cons_eq, hc, hrest,
            Option.some.injEq] at h2
          exact h2.symm
        subst hsel
        have ihe := ih sel2 hrest
        cases b with
        | true =>
          rw [if_pos rfl]
          constructor
          · intro hin
            rcases List.mem_cons.mp hin with rfl | hin2
            · exact ⟨List.mem_cons_self _ _, hc⟩
            · obtain ⟨hm, hck⟩ := ihe.mp hin2
              exact ⟨List.mem_cons_of_mem _ hm, hck⟩
          · rintro ⟨hm, hck⟩
            rcases List.mem_cons.mp hm with rfl | hm2
            · exact List.mem_cons_self _ _
            · exact List.mem_cons_of_mem _ (ihe.mpr ⟨hm2, hck⟩)
        | false =>
          rw [if_neg Bool.false_ne_true]
          constructor
          · intro hin
            obtain ⟨hm, hck⟩ := ihe.mp hin
            exact ⟨List.mem_cons_of_mem _ hm, hck⟩
          · rintro ⟨hm, hck⟩
            rcases List.mem_cons.mp hm with rfl | hm2
            · rw [hc] at hck
              simp at hck
            · exact ihe.mpr ⟨hm2, hck⟩

/-- C7: on every run of filter_files that returns (does not abort in
one of the expect panics it contains), the returned selection holds
exactly the directory entries whose name starts with the literal
prefix and whose modification time is strictly after now minus
days_back days; an entry whose metadata cannot be read is excluded
rather than erroring. Stated for directories whose readable metadata
carries a readable modification time (when modified() itself fails the
code substitutes the current time, a path the claim does not
address). -/
theorem c7_filter_files_sel (entries : List DirEntryM) (now : Nat)
    (days_back : Int) (sel : List DirEntryM)
    (hrun : filter_files entries now days_back = some sel)
    (hmod : ∀ e ∈ entries, e.meta.all (fun m => m.modified.isSome) = true) :
    ∀ e, e ∈ sel ↔
      (e ∈ entries ∧ strStarts e.name "fwddmp.log.tmp" = true ∧
        ∃ m t, e.meta = some m ∧ m.modified = some t ∧
          (now : Int) - days_back * 86400 < t) := by
  intro e
  rw [mem_filter_files entries now days_back sel hrun e]
  constructor
  · rintro ⟨hmem, hck⟩
    cases hname : strStarts e.name "fwddmp.log.tmp" with
    | false => simp [entryCheck, hname] at hck
    | true =>
      refine ⟨hmem, rfl, ?_⟩
      cases hm : e.meta with
      | none =>
        simp [entryCheck, hname, hm] at hck
      | some m =>
        cases hmd : m.modified with
        | none =>
          have hall := hmod e hmem
          rw [hm] at hall
          simp [Option.all, hmd] at hall
        | some t =>
          refine ⟨m, t, rfl, hmd, ?_⟩
          simp only [entryCheck, hname, if_true, hm, hmd] at hck
          by_cases hneg : t < 0
          · simp [hneg] at hck
          · simp only [hneg, if_false, checkAgainstCutoff] at hck
            by_cases hbound : days_back < -maxDurationDays ∨
                maxDurationDays < days_back
            · simp [hbound] at hck
            · simp only [hbound, if_false] at hck
              by_cases hcut : (now : Int) - days_back * 86400 < 0
              · simp [hcut] at hck
              · simp only [hcut, if_false, Option.some.injEq,
                  decide_eq_true_eq] at hck
                exact hck
  · rintro ⟨hmem, hname, m, t, hm, hmd, hcmp⟩
    obtain ⟨b, hb⟩ := filter_files_run_checks entries now days_back sel hrun
      e hmem
    refine ⟨hmem, ?_⟩
    simp only [entryCheck, hname, if_true, hm, hmd] at hb ⊢
    by_cases hneg : t < 0
    · simp [hneg] at hb
    · simp only [hneg, if_false, checkAgainstCutoff] at hb ⊢
      by_cases hbound : days_back < -maxDurationDays ∨
          maxDurationDays < days_back
      · simp [hbound] at hb
      · simp only [hbound, if_false] at hb ⊢
        by_cases hcut : (now : Int) - days_back * 86400 < 0
        · simp [hcut] at hb
        · simp only [hcut, if_false, Option.some.injEq]
          simpa using hcmp

/-- Witness for C7 on a concrete directory listing with one matching
entry, one entry with unreadable metadata, and one stale entry, on a
run that returns a selection. -/
theorem c7_filter_files_sel_witness :
    (⟨"fwddmp.log.tmp1", some ⟨some 999999999⟩⟩ : DirEntryM) ∈
      [(⟨"fwddmp.log.tmp1", some ⟨some 999999999⟩⟩ : DirEntryM)] ↔
      ((⟨"fwddmp.log.tmp1", some ⟨some 999999999⟩⟩ : DirEntryM) ∈
          [(⟨"fwddmp.log.tmp1", some ⟨some 999999999⟩⟩ : DirEntryM),
            ⟨"fwddmp.log.tmp2", none⟩,
            ⟨"fwddmp.log.tmp3", some ⟨some 100⟩⟩] ∧
        strStarts "fwddmp.log.tmp1" "fwddmp.log.tmp" = true ∧
        ∃ m t, (some (⟨some 999999999⟩ : FileMeta) = some m) ∧
          m.modified = some t ∧
          ((1000000000 : Nat) : Int) - 1 * 86400 < t) :=
  c7_filter_files_sel
    [⟨"fwddmp.log.tmp1", some ⟨some 999999999⟩⟩,
      ⟨"fwddmp.log.tmp2", none⟩,
      ⟨"fwddmp.log.tmp3", some ⟨some 100⟩⟩]
    1000000000 1
    [⟨"fwddmp.log.tmp1", some ⟨some 999999999⟩⟩]
    (by decide) (by decide)
    ⟨"fwddmp.log.tmp1", some ⟨some 999999999⟩⟩

/-- C8 counterexample: a record-stream error yielded while reading
(the way an unreadable-mid-read or structurally invalid record surfaces
through the CSV reader iterator) is skipped, the file still returns
aggregates, and the run still produces its outputs, contradicting the
claim that any such failure aborts the run with no output. -/
theorem c8_counterexample :
    (process_csv_file ⟨2024, 1, 1, 0, 0, 0⟩
      (Except.ok [(none : CsvRow)])).isOk = true ∧
    (runOutputs [(⟨2024, 1, 1, 0, 0, 0⟩,
      Except.ok [(none : CsvRow)])]).isSome = true :=
  ⟨rfl, rfl⟩

/-- C8 (amended): only the failure to open a selected file is fatal:
the open error propagates out of process_csv_file, the file fold stops
at the first such error, and no outputs are produced; errors yielded
for individual records while reading an opened file are skipped and are
never fatal. -/
theorem c8_open_failure_fatal :
    (∀ (cutoff : NaiveDateTime) (e : String),
      process_csv_file cutoff (Except.error e) = Except.error e) ∧
    (∀ (cutoff : NaiveDateTime) (rows : List CsvRow),
      (process_csv_file cutoff (Except.ok rows)).isOk = true) ∧
    (∀ files : List FileRead, (∃ f ∈ files, (f.2).isOk = false) →
      runOutputs files = none) := by
  refine ⟨fun _ _ => rfl, fun _ _ => rfl, ?_⟩
  rintro files ⟨f, hf, hbad⟩
  cases hout : foldFiles initGlobal files with
  | error e => simp [runOutputs, hout]
  | ok g =>
    exact absurd (foldFiles_ok_of_mem files initGlobal g hout f hf)
      (by simp [hbad])

/-- Witness for C8 (amended): one unopenable file yields no outputs. -/
theorem c8_open_failure_fatal_witness :
    runOutputs [(⟨2024, 1, 1, 0, 0, 0⟩, Except.error "io error")] = none :=
  c8_open_failure_fatal.2.2
    [(⟨2024, 1, 1, 0, 0, 0⟩, Except.error "io error")]
    ⟨(⟨2024, 1, 1, 0, 0, 0⟩, Except.error "io error"),
      List.mem_singleton.mpr rfl, rfl⟩

/-- C9 counterexample: a non-numeric days_back argument does not exit
with code 1 and a usage message; it dies in the expect panic, whose
process exit code is 101. -/
theorem c9_counterexample :
    mainArgs ["prog", "logs", "abc"] =
      MainOutcome.panicked "Please provide a valid number for days" ∧
    exitCodeOf (mainArgs ["prog", "logs", "abc"]) = some 101 ∧
    (some 101 : Option Nat) ≠ some 1 := by
  refine ⟨rfl, rfl, by simp⟩

/-- C9 (amended): a negative days_back exits with code 1 and the
non-negative-number error message on the error stream; a non-numeric
days_back terminates through a panic (message of the expect call,
process exit code 101) rather than a code-1 usage exit; in every
outcome other than proceeding with a parsed non-negative days_back the
pipeline is never entered, so no output files are written. -/
theorem c9_days_back_validation :
    (∀ p dir s, parse_i64 s = none →
      mainArgs [p, dir, s] =
        MainOutcome.panicked "Please provide a valid number for days" ∧
      exitCodeOf (mainArgs [p, dir, s]) = some 101) ∧
    (∀ p dir s d, parse_i64 s = some d → d < 0 →
      mainArgs [p, dir, s] =
        MainOutcome.usageError 1
          "Error: <days_back> must be a non-negative number." ∧
      exitCodeOf (mainArgs [p, dir, s]) = some 1) ∧
    (∀ args dir db, mainArgs args = MainOutcome.proceed dir db → 0 ≤ db) := by
  refine ⟨?_, ?_, ?_⟩
  · intro p dir s h
    constructor <;> simp [mainArgs, exitCodeOf, h]
  · intro p dir s d h hd
    constructor <;> simp [mainArgs, exitCodeOf, h, hd]
  · intro args dir db h
    by_cases hl : args.length < 3
    · simp [mainArgs, hl] at h
    · simp only [mainArgs, hl, if_false] at h
      cases hp : parse_i64 (args.getD 2 "") with
      | none =>
        rw [hp] at h
        simp at h
      | some d =>
        rw [hp] at h
        by_cases hd : d < 0
        · simp [hd] at h
        · simp [hd] at h
          omega

/-- Witness for C9 (amended) at concrete bad arguments. -/
theorem c9_days_back_validation_witness :
    (mainArgs ["p", "d", "x"] =
        MainOutcome.panicked "Please provide a valid number for days" ∧
      exitCodeOf (mainArgs ["p", "d", "x"]) = some 101) ∧
    (mainArgs ["p", "d", "-5"] =
        MainOutcome.usageError 1
          "Error: <days_back> must be a non-negative number." ∧
      exitCodeOf (mainArgs ["p", "d", "-5"]) = some 1) :=
  ⟨c9_days_back_validation.1 "p" "d" "x" (by decide),
    c9_days_back_validation.2.1 "p" "d" "-5" (-5) (by decide) (by decide)⟩

theorem zip_keys_values (l : List (String × Nat)) :
    (l.map Prod.fst).zip (l.map Prod.snd) = l := by
  induction l with
  | nil => rfl
  | cons e rest ih => simp [ih]

theorem sortDescByCount_pairwise (m : HMap) :
    List.Pairwise (fun a b : String × Nat => b.2 ≤ a.2) (sortDescByCount m) := by
  have h := @List.sorted_mergeSort (String × Nat)
    (fun a b => decide (b.2 ≤ a.2))
    (fun a b c hab hbc => by
      simp only [decide_eq_true_eq] at hab hbc ⊢
      omega)
    (fun a b => by
      simp only [Bool.or_eq_true, decide_eq_true_eq]
      omega)
    m
  exact h.imp fun hab => by simpa using hab

/-- C6: the Threat Sources and Threat Destinations arrays of
events.json hold at most 10 entries each, the highest-count entries of
the corresponding global map sorted by count descending (every kept
entry counts at least as much as every dropped one, and the sorted
list is a permutation of the map), while threat_sources.json carries
the complete map: its key under lookup is present exactly for the
source IPs observed in included rows across all selected files, with
the summed count, and its two arrays are index-aligned with the map
entries. -/
theorem c6_ranking_and_full_sources (files : List FileRead)
    (g : AggregatedData) (h : foldFiles initGlobal files = Except.ok g) :
    ((mkEventsDoc g).sources.labels.length ≤ 10 ∧
      (mkEventsDoc g).sources.counts.length ≤ 10 ∧
      (mkEventsDoc g).dests.labels.length ≤ 10 ∧
      (mkEventsDoc g).dests.counts.length ≤ 10) ∧
    (List.Pairwise (fun a b : String × Nat => b.2 ≤ a.2)
        (topTen g.threat_sources) ∧
      List.Pairwise (fun a b : String × Nat => b.2 ≤ a.2)
        (topTen g.threat_destinations)) ∧
    ((∀ x ∈ topTen g.threat_sources,
        ∀ y ∈ (sortDescByCount g.threat_sources).drop 10, y.2 ≤ x.2) ∧
      (∀ x ∈ topTen g.threat_destinations,
        ∀ y ∈ (sortDescByCount g.threat_destinations).drop 10, y.2 ≤ x.2)) ∧
    ((sortDescByCount g.threat_sources).Perm g.threat_sources ∧
      (sortDescByCount g.threat_destinations).Perm g.threat_destinations) ∧
    (∀ k, HMap.lookup g.threat_sources k =
      if totalSourceCount files k = 0 then none
      else some (totalSourceCount files k)) ∧
    ((mkSourcesDoc g).labels = HMap.keysList g.threat_sources ∧
      (mkSourcesDoc g).counts = HMap.valuesList g.threat_sources ∧
      (mkSourcesDoc g).labels.zip (mkSourcesDoc g).counts =
        g.threat_sources ∧
      ∀ e ∈ g.threat_sources, e.2 = totalSourceCount files e.1) := by
  have hAllPos : HMap.allPos g.threat_sources :=
    foldFiles_allPos_ts files initGlobal g h (by intro e he; cases he)
  have hnodup : HMap.nodupKeys g.threat_sources :=
    foldFiles_nodup_ts files initGlobal g h List.nodup_nil
  have hcount : ∀ k, HMap.count g.threat_sources k = totalSourceCount files k := by
    intro k
    have hc := foldFiles_count_ts files initGlobal g h k
    have h0 : HMap.count initGlobal.threat_sources k = 0 := rfl
    omega
  refine ⟨?_, ⟨?_, ?_⟩, ⟨?_, ?_⟩, ⟨?_, ?_⟩, ?_, rfl, rfl, ?_, ?_⟩
  · simp only [mkEventsDoc, toArrays, topTen, List.length_map,
      List.length_take]
    omega
  · exact List.Pairwise.sublist (List.take_sublist 10 _)
      (sortDescByCount_pairwise _)
  · exact List.Pairwise.sublist (List.take_sublist 10 _)
      (sortDescByCount_pairwise _)
  · have hsplit := List.pairwise_append.mp
      (by rw [List.take_append_drop 10 (sortDescByCount g.threat_sources)]
          exact sortDescByCount_pairwise g.threat_sources)
    exact fun x hx y hy => hsplit.2.2 x hx y hy
  · have hsplit := List.pairwise_append.mp
      (by rw [List.take_append_drop 10 (sortDescByCount g.threat_destinations)]
          exact sortDescByCount_pairwise g.threat_destinations)
    exact fun x hx y hy => hsplit.2.2 x hx y hy
  · exact List.mergeSort_perm _ _
  · exact List.mergeSort_perm _ _
  · intro k
    by_cases ht : totalSourceCount files k = 0
    · have hnm : k ∉ HMap.keysList g.threat_sources := by
        intro hmem
        have := HMap.count_pos_of_mem _ _ hAllPos hmem
        rw [hcount k] at this
        omega
      rw [(HMap.lookup_eq_none _ k).mpr hnm, if_pos ht]
    · have hmem : k ∈ HMap.keysList g.threat_sources := by
        by_contra hnm
        exact ht (by rw [← hcount k]
                     exact HMap.count_eq_zero_of_not_mem _ k hnm)
      rw [HMap.lookup_eq_some_count _ _ hmem, hcount k, if_neg ht]
  · exact zip_keys_values g.threat_sources
  · intro e he
    have hl := HMap.lookup_of_mem_nodup g.threat_sources e hnodup he
    have hc : HMap.count g.threat_sources e.1 = e.2 := by
      simp [HMap.count, hl]
    rw [← hc, hcount e.1]

/-- Witness for C6 on one concrete selected file with two included
rows. -/
theorem c6_ranking_and_full_sources_witness :
    HMap.lookup (AggregatedData.threat_sources (mergeAgg initGlobal
        (processRows ⟨2024, 1, 1, 0, 0, 0⟩
          [some ["x", "1", "x", "f", "2024/03/01 09:00:00", "x", "10.0.0.1"],
            some ["x", "1", "x", "f", "2024/03/01 10:00:00", "x",
              "10.0.0.1"]]))) "10.0.0.1" =
      if totalSourceCount
          [(⟨2024, 1, 1, 0, 0, 0⟩, Except.ok
            [some ["x", "1", "x", "f", "2024/03/01 09:00:00", "x",
              "10.0.0.1"],
              some ["x", "1", "x", "f", "2024/03/01 10:00:00", "x",
                "10.0.0.1"]])] "10.0.0.1" = 0
      then none
      else some (totalSourceCount
        [(⟨2024, 1, 1, 0, 0, 0⟩, Except.ok
          [some ["x", "1", "x", "f", "2024/03/01 09:00:00", "x",
            "10.0.0.1"],
            some ["x", "1", "x", "f", "2024/03/01 10:00:00", "x",
              "10.0.0.1"]])] "10.0.0.1") :=
  (c6_ranking_and_full_sources
    [(⟨2024, 1, 1, 0, 0, 0⟩, Except.ok
      [some ["x", "1", "x", "f", "2024/03/01 09:00:00", "x", "10.0.0.1"],
        some ["x", "1", "x", "f", "2024/03/01 10:00:00", "x", "10.0.0.1"]])]
    (mergeAgg initGlobal (processRows ⟨2024, 1, 1, 0, 0, 0⟩
      [some ["x", "1", "x", "f", "2024/03/01 09:00:00", "x", "10.0.0.1"],
        some ["x", "1", "x", "f", "2024/03/01 10:00:00", "x", "10.0.0.1"]]))
    rfl).2.2.2.2.1 "10.0.0.1"
